import Mathlib

/-!
Verification development for the pg_email_opt email-address extension.

The C sources are shallowly embedded over byte lists (`List Nat`, each
element an unsigned byte value).  Pure C helpers become Lean functions;
PostgreSQL `ereport(ERROR, ...)` aborts are modelled as `none` / `false`
results.  Machine 32-bit unsigned arithmetic in the DJB2 hash is modelled
with explicit `% 2^32`.
-/

/-- Bytes of an ASCII string, as natural numbers. -/
def strBytes (s : String) : List Nat :=
  s.data.map Char.toNat

/-! ## Shared primitives (src/myutils/common.c, PostgreSQL helpers) -/

/-- PostgreSQL `pg_tolower`: lower-case an ASCII byte, all others unchanged. -/
def pg_tolower (c : Nat) : Nat :=
  if 65 ≤ c ∧ c ≤ 90 then c + 32 else c

/-- One step of the DJB2 rolling hash in 32-bit unsigned arithmetic:
`hash = (hash << 5) + hash + c`, i.e. `hash * 33 + c (mod 2^32)`. -/
def djb2Step (h c : Nat) : Nat :=
  (h * 33 + c) % 4294967296

/-- PostgreSQL `pg_strncasecmp(s1, s2, n)` on byte lists: compare at most `n`
bytes case-insensitively, returning the difference of the first pair of
lower-cased bytes that differ (the callers in this repository never reach a
terminating NUL within `n` bytes, so running out of either list yields 0
just like hitting the length bound). -/
def pg_strncasecmp : List Nat → List Nat → Nat → Int
  | _, _, 0 => 0
  | [], _, _ + 1 => 0
  | _, [], _ + 1 => 0
  | a :: as, b :: bs, n + 1 =>
    if pg_tolower a ≠ pg_tolower b then (pg_tolower a : Int) - pg_tolower b
    else pg_strncasecmp as bs n

/-- `bounded_strcasecmp` from src/myutils/common.c: case-insensitive compare
of the first `min(len1, len2)` bytes; if that common prefix is equal, the
longer string is greater. -/
def bounded_strcasecmp (s1 s2 : List Nat) : Int :=
  let cmp := pg_strncasecmp s1 s2 (min s1.length s2.length)
  if cmp = 0 then
    if s1.length < s2.length then -1
    else if s2.length < s1.length then 1
    else 0
  else cmp

/-- C `memcmp` on byte lists: difference of the first differing byte pair,
0 if no examined pair differs. -/
def memcmpList : List Nat → List Nat → Int
  | [], _ => 0
  | _, [] => 0
  | a :: as, b :: bs =>
    if a ≠ b then (a : Int) - b else memcmpList as bs

/-! ## Local-part validation (src/myutils/local.c) -/

/-- `is_valid_unquoted_char` from src/myutils/local.c: letters, digits and
the RFC dot-atom specials (the dot itself is included in the C class; the
callers treat dots separately before consulting this predicate). -/
def is_valid_unquoted_char (c : Nat) : Bool :=
  (decide (65 ≤ c) && decide (c ≤ 90)) ||
  (decide (97 ≤ c) && decide (c ≤ 122)) ||
  (decide (48 ≤ c) && decide (c ≤ 57)) ||
  c == 33 || c == 35 || c == 36 ||
  c == 37 || c == 38 || c == 39 ||
  c == 42 || c == 43 || c == 45 ||
  c == 47 || c == 61 || c == 63 ||
  c == 94 || c == 95 || c == 96 ||
  c == 123 || c == 124 || c == 125 ||
  c == 126 || c == 46

/-- `is_valid_quoted_char` from src/myutils/local.c: any printable ASCII
byte except backslash and double quote. -/
def is_valid_quoted_char (c : Nat) : Bool :=
  decide (32 ≤ c) && decide (c ≤ 126) && !(c == 92) && !(c == 34)

/-- The quote detection `local[0] == '"' && local[len-1] == '"'` shared by
`validate_email_local_part`, `hash_local_part` and
`email_addr_normalized_local_part` (no length guard; `compare_local_parts`
adds its own `len >= 2` guard on top). -/
def isQuotedBytes (l : List Nat) : Bool :=
  l.head?.getD 0 == 34 && l.getLast?.getD 0 == 34

/-- The interior walk of the quoted branch of `validate_email_local_part`
(src/myutils/local.c lines 63-93), returning `none` when an illegal byte is
found and otherwise `some` of the final `prev_was_backslash` flag.  The C
code only tests whether the walk failed; the final flag is exposed here so
the trailing-escape behaviour can be stated (claim C10). -/
def quotedWalkSt : List Nat → Bool → Option Bool
  | [], prevBs => some prevBs
  | c :: rest, prevBs =>
    if prevBs then
      if c ≠ 32 ∧ c ≠ 9 ∧ (c < 32 ∨ 126 < c) then none
      else quotedWalkSt rest false
    else if c == 92 then quotedWalkSt rest true
    else if is_valid_quoted_char c then quotedWalkSt rest false
    else none

/-- The dot-and-character walk shared by the unquoted branch of
`validate_email_local_part` (src/myutils/local.c lines 97-124) and by
`quoted_content_valid_as_unquoted` (lines 162-177): the two C loops are
byte-for-byte identical, tracking `prev_was_dot` and rejecting consecutive
dots and bytes outside the unquoted class. -/
def unquotedWalk : List Nat → Bool → Bool
  | [], _ => true
  | c :: rest, prevDot =>
    if c == 46 then
      if prevDot then false else unquotedWalk rest true
    else if is_valid_unquoted_char c then unquotedWalk rest false
    else false

/-- `validate_email_local_part` from src/myutils/local.c (the NULL-pointer
branch is not representable for a byte list and is dropped; everything else
is kept: length bounds, quote detection from first and last byte, the
quoted interior walk — whose final escape flag is not examined — and the
unquoted dot-atom walk preceded by the first/last-dot check). -/
def validate_email_local_part (l : List Nat) : Bool :=
  if l.length == 0 then false
  else if 64 < l.length then false
  else if isQuotedBytes l then
    if l.length ≤ 2 then false
    else (quotedWalkSt ((l.drop 1).take (l.length - 2)) false).isSome
  else
    if l.head?.getD 0 == 46 || l.getLast?.getD 0 == 46 then false
    else unquotedWalk l false

/-- `quoted_content_valid_as_unquoted` from src/myutils/local.c: strip the
surrounding quotes and check the interior with the unquoted rules (callers
only invoke this on strings of length ≥ 2 whose first and last bytes are
quotes; the C code indexes out of bounds otherwise). -/
def quoted_content_valid_as_unquoted (l : List Nat) : Bool :=
  let content := (l.drop 1).take (l.length - 2)
  if content.head?.getD 0 == 46 || content.getLast?.getD 0 == 46 then false
  else unquotedWalk content false

/-- `hash_local_part` from src/myutils/local.c: DJB2 over the lower-cased
interior when the quoted content collapses to an unquoted form, over the
raw bytes (quotes included) for other quoted parts, and over the
lower-cased bytes for unquoted parts. -/
def hash_local_part (l : List Nat) : Nat :=
  let is_quoted := isQuotedBytes l
  if is_quoted && quoted_content_valid_as_unquoted l then
    List.foldl djb2Step 5381 (((l.drop 1).take (l.length - 2)).map pg_tolower)
  else if is_quoted then
    List.foldl djb2Step 5381 l
  else
    List.foldl djb2Step 5381 (l.map pg_tolower)

/-- `compare_local_parts` from src/myutils/local.c, including the quoting
detection with its explicit `len >= 2` guard and the exact branch structure
of the mixed quoted/unquoted case. -/
def compare_local_parts (l1 l2 : List Nat) : Int :=
  let q1 := decide (2 ≤ l1.length) && isQuotedBytes l1
  let q2 := decide (2 ≤ l2.length) && isQuotedBytes l2
  if !q1 && !q2 then
    bounded_strcasecmp l1 l2
  else if q1 && q2 then
    let mn := min l1.length l2.length
    let cmp := memcmpList (l1.take mn) (l2.take mn)
    if cmp = 0 then
      if l1.length < l2.length then -1
      else if l2.length < l1.length then 1
      else 0
    else cmp
  else
    let quoted := if q1 then l1 else l2
    let unquoted := if q1 then l2 else l1
    if quoted_content_valid_as_unquoted quoted then
      let cmp := bounded_strcasecmp ((quoted.drop 1).take (quoted.length - 2)) unquoted
      if q1 then -cmp else cmp
    else
      if q1 then 1 else -1

/-! ## IP literal validation (src/myutils/ip.c) -/

/-- The scanning loop of `is_valid_ipv4` (src/myutils/ip.c lines 20-43):
`prev` is the previously processed byte (`none` at the very start, i.e.
`p == ipv4_str`), `curr` the running numeric value of the current group and
`dots` the dots seen so far.  At end of input the C code requires the final
byte not to be a dot and exactly 3 dots in total. -/
def ipv4Loop : List Nat → Option Nat → Nat → Nat → Bool
  | [], prev, _, dots => !(prev == some 46) && dots == 3
  | c :: rest, prev, curr, dots =>
    if c == 46 then
      if prev = none ∨ prev = some 46 then false
      else ipv4Loop rest (some 46) 0 (dots + 1)
    else if c < 48 ∨ 57 < c then false
    else
      let curr' := curr * 10 + (c - 48)
      if 255 < curr' then false
      else ipv4Loop rest (some c) curr' dots

/-- `is_valid_ipv4` from src/myutils/ip.c. -/
def is_valid_ipv4 (s : List Nat) : Bool :=
  if s = [] then false
  else ipv4Loop s none 0 0

/-- `is_valid_ipv6_segment` from src/myutils/ip.c: 1-4 hex digits. -/
def is_valid_ipv6_segment (seg : List Nat) : Bool :=
  if 4 < seg.length ∨ seg.length = 0 then false
  else seg.all (fun c =>
    (decide (48 ≤ c) && decide (c ≤ 57)) ||
    (decide (97 ≤ c) && decide (c ≤ 102)) ||
    (decide (65 ≤ c) && decide (c ≤ 70)))

/-- The colon-scanning loop of `is_valid_ipv6` (src/myutils/ip.c lines
85-121) over the full byte string `s` (prefix included): `i` is the current
position `p`, `seg_start` the index the current segment starts at,
`segments` the count of completed non-empty segments and `hdc` whether a
`::` has been seen.  The C code checks `p == ipv6_str` (here `i = 0`) and
`*(p-1)` (here `s[i-1]`) exactly as written; crucially `seg_start` begins
at the start of the whole string even when the `IPv6:` prefix is skipped. -/
def ipv6Loop (s : List Nat) : Nat → Nat → Nat → Nat → Bool → Bool
  | 0, _, _, _, _ => false
  | fuel + 1, i, seg_start, segments, hdc =>
    match s.get? i with
    | none =>
      let seg_len := s.length - seg_start
      if 0 < seg_len ∧ ¬ is_valid_ipv6_segment ((s.drop seg_start).take seg_len) then false
      else
        let segments := if 0 < seg_len then segments + 1 else segments
        if hdc then decide (segments ≤ 7) else segments == 8
    | some c =>
      if c == 58 then
        let seg_len := i - seg_start
        if 0 < seg_len ∧ ¬ is_valid_ipv6_segment ((s.drop seg_start).take seg_len) then false
        else
          let segments := if 0 < seg_len then segments + 1 else segments
          if s.get? (i + 1) == some 58 then
            if hdc then false
            else ipv6Loop s fuel (i + 2) (i + 2) segments true
          else if i = 0 ∨ s.get? (i - 1) == some 58 then false
          else ipv6Loop s fuel (i + 1) (i + 1) segments hdc
      else ipv6Loop s fuel (i + 1) seg_start segments hdc

/-- `is_valid_ipv6` from src/myutils/ip.c: skips an `IPv6:` prefix with
`p += 5` but leaves `seg_start` at the start of the whole string.  The
fuel `s.length + 1` is an upper bound on the number of loop iterations
(the position strictly increases and the loop ends once it passes the end
of the list), so the artificial fuel-exhaustion branch is never taken. -/
def is_valid_ipv6 (s : List Nat) : Bool :=
  if s = [] then false
  else
    ipv6Loop s (s.length + 1) (if s.take 5 = strBytes "IPv6:" then 5 else 0) 0 0 false

/-- The bracket-stripped interior used by `validate_ip_literal`
(`pnstrdup(ip_str + 1, len - 2)`). -/
def bracketInterior (s : List Nat) : List Nat :=
  (s.drop 1).take (s.length - 2)

/-- `validate_ip_literal` from src/myutils/ip.c: require surrounding
square brackets, then validate the interior as IPv6 when it starts with
`IPv6:` and as IPv4 otherwise (error messages are dropped; `false` stands
for any failure). -/
def validate_ip_literal (s : List Nat) : Bool :=
  if s.length < 2 ∨ ¬ s.head?.getD 0 = 91 ∨ ¬ s.getLast?.getD 0 = 93 then false
  else
    let ip := bracketInterior s
    if ip.take 5 = strBytes "IPv6:" then is_valid_ipv6 ip
    else is_valid_ipv4 ip

/-! ## Domain validation (src/myutils/domain.h) -/

/-- `is_valid_domain_char` from src/myutils/domain.h: letters, digits,
hyphen and dot. -/
def is_valid_domain_char (c : Nat) : Bool :=
  (decide (65 ≤ c) && decide (c ≤ 90)) ||
  (decide (97 ≤ c) && decide (c ≤ 122)) ||
  (decide (48 ≤ c) && decide (c ≤ 57)) ||
  c == 45 || c == 46

/-- `is_all_numeric` from src/myutils/domain.h (vacuously true on the
empty string, as in C; callers only use it on non-empty labels). -/
def is_all_numeric (l : List Nat) : Bool :=
  l.all (fun c => decide (48 ≤ c) && decide (c ≤ 57))

/-- The label walk of `validate_standard_domain` (src/myutils/domain.h
lines 65-134): `label` accumulates the bytes of the current label (so its
head is `label_start[0]` and its last byte is `*(p-1)` at a boundary),
`hadDot` records whether a dot was seen.  At each dot and at the end the C
code checks the label is 1-63 bytes and does not start or end with a
hyphen; at the end it additionally requires a dot to have occurred and the
final label (the TLD) not to be all digits. -/
def domLoop : List Nat → List Nat → Bool → Bool
  | [], label, hadDot =>
    if label.length = 0 then false
    else if 63 < label.length then false
    else if label.head?.getD 0 == 45 || label.getLast?.getD 0 == 45 then false
    else if !hadDot then false
    else !(is_all_numeric label)
  | c :: rest, label, hadDot =>
    if c == 46 then
      if label.length = 0 then false
      else if 63 < label.length then false
      else if label.head?.getD 0 == 45 || label.getLast?.getD 0 == 45 then false
      else domLoop rest [] true
    else if !(is_valid_domain_char c) then false
    else domLoop rest (label ++ [c]) hadDot

/-- `validate_standard_domain` from src/myutils/domain.h. -/
def validate_standard_domain (d : List Nat) : Bool :=
  if 255 < d.length then false
  else domLoop d [] false

/-- `validate_email_domain` from src/myutils/domain.h: empty fails, a
leading `[` dispatches to the IP-literal validator, anything else to the
standard domain validator (the NULL branch is not representable). -/
def validate_email_domain (d : List Nat) : Bool :=
  if d.length = 0 then false
  else if d.head?.getD 0 == 91 then validate_ip_literal d
  else validate_standard_domain d

/-! ## The address layer (src/pg_email_opt.c) -/

/-- The validated byte content of a stored `EMAIL_ADDR` value: the
local-part slice and the domain slice (`data[0..local_len)` and
`data[domain_offset..domain_offset+domain_len)` in the C struct; the
varlena header, offset field and NUL terminators carry no further
information). -/
structure EmailAddr where
  localPart : List Nat
  domain : List Nat
deriving DecidableEq, Repr

/-- Both parts were accepted by their validators — the only way
`email_addr_in` ever builds an `EMAIL_ADDR`. -/
def ValidEmailAddr (a : EmailAddr) : Prop :=
  validate_email_local_part a.localPart = true ∧ validate_email_domain a.domain = true

instance (a : EmailAddr) : Decidable (ValidEmailAddr a) := by
  unfold ValidEmailAddr; infer_instance

/-- `email_addr_hash` from src/pg_email_opt.c: DJB2 of the local part,
folded with the `@` byte, then with each lower-cased domain byte. -/
def email_addr_hash (a : EmailAddr) : Nat :=
  List.foldl djb2Step (djb2Step (hash_local_part a.localPart) 64) (a.domain.map pg_tolower)

/-- `email_addr_cmp` from src/pg_email_opt.c (the non-NULL path): compare
domains with `bounded_strcasecmp`, and only on a tie compare local parts
with `compare_local_parts`. -/
def email_addr_cmp (a1 a2 : EmailAddr) : Int :=
  let cmp := bounded_strcasecmp a1.domain a2.domain
  if cmp ≠ 0 then cmp
  else compare_local_parts a1.localPart a2.localPart

/-- One step of the `find_valid_at` scanner state (src/pg_email_opt.c
lines 216-228, without the candidate update): an escaped byte clears
`escaped`; a backslash sets it; a double quote toggles `in_quotes`; other
bytes leave the state unchanged. -/
def scanStep (c : Nat) (inq esc : Bool) : Bool × Bool :=
  if esc then (inq, false)
  else if c == 92 then (inq, true)
  else if c == 34 then (!inq, esc)
  else (inq, esc)

/-- The `(in_quotes, escaped)` state after scanning a byte list from the
given start state. -/
def scanStateFrom : List Nat → Bool → Bool → Bool × Bool
  | [], inq, esc => (inq, esc)
  | c :: rest, inq, esc => scanStateFrom rest (scanStep c inq esc).1 (scanStep c inq esc).2

/-- The full `find_valid_at` scan loop: threads the `scanStep` state plus
the running byte index and the "last candidate" separator position.  The
candidate is updated exactly when the C `else if (*p == '@' && !in_quotes)`
branch fires, i.e. when the byte is `@`, `escaped` is clear (the earlier
branches of the chain did not fire) and `in_quotes` is clear. -/
def findValidAtAux : List Nat → Bool → Bool → Nat → Option Nat → Bool × Bool × Option Nat
  | [], inq, esc, _, cand => (inq, esc, cand)
  | c :: rest, inq, esc, i, cand =>
    findValidAtAux rest (scanStep c inq esc).1 (scanStep c inq esc).2 (i + 1)
      (if !esc && c == 64 && !inq then some i else cand)

/-- `find_valid_at` from src/pg_email_opt.c: `none` models the two
`ereport(ERROR, ...)` aborts (unterminated quotes, trailing backslash);
`some cand` is the returned pointer, itself `none` when no separator was
found. -/
def find_valid_at (s : List Nat) : Option (Option Nat) :=
  let r := findValidAtAux s false false 0 none
  if r.1 then none
  else if r.2.1 then none
  else some r.2.2

/-- Position `k` of `rest` holds an `@` byte at which the scan state
(started from `(inq, esc)`) is clear of quoting and escaping. -/
def validAtFromState (rest : List Nat) (inq esc : Bool) (k : Nat) : Prop :=
  rest.get? k = some 64 ∧ scanStateFrom (rest.take k) inq esc = (false, false)

instance (rest : List Nat) (inq esc : Bool) (k : Nat) :
    Decidable (validAtFromState rest inq esc k) := by
  unfold validAtFromState; infer_instance

/-- Position `k` holds an `@` that is outside double quotes and not
consumed by a backslash escape: the scan state just before it is clear. -/
def validAtIdx (s : List Nat) (k : Nat) : Prop :=
  validAtFromState s false false k

instance (s : List Nat) (k : Nat) : Decidable (validAtIdx s k) := by
  unfold validAtIdx; infer_instance

/-- `email_addr_in` from src/pg_email_opt.c: find the separator, slice the
input into `[0, at_pos)` and `(at_pos, end)`, validate both parts, and
build the stored value (the length `ereport` guards of `make_email_addr`
are kept as explicit checks; every `ereport(ERROR, ...)` becomes `none`). -/
def email_addr_in (s : List Nat) : Option EmailAddr :=
  match find_valid_at s with
  | none => none
  | some none => none
  | some (some i) =>
    let lp := s.take i
    let dom := s.drop (i + 1)
    if ¬ validate_email_local_part lp then none
    else if ¬ validate_email_domain dom then none
    else if 64 < lp.length then none
    else if 255 < dom.length then none
    else some ⟨lp, dom⟩

/-- `get_full_email` from src/pg_email_opt.c: local part, `@`, domain. -/
def get_full_email (a : EmailAddr) : List Nat :=
  a.localPart ++ 64 :: a.domain

/-- `email_addr_cast_to_text` from src/pg_email_opt.c: builds the same
`local@domain` byte string as `get_full_email`, into a text value. -/
def email_addr_cast_to_text (a : EmailAddr) : List Nat :=
  a.localPart ++ 64 :: a.domain

/-- `email_addr_normalized_local_part` from src/pg_email_opt.c: when the
stored local part is quoted and its content is valid unquoted, return the
interior; otherwise return the bytes as-is.  (No byte is lower-cased on
either path: the C code only does `memcpy`.) -/
def email_addr_normalized_local_part (l : List Nat) : List Nat :=
  let is_quoted := isQuotedBytes l
  if is_quoted && quoted_content_valid_as_unquoted l then
    (l.drop 1).take (l.length - 2)
  else l

/-- `email_addr_normalized_domain` from src/pg_email_opt.c: every domain
byte lower-cased with `pg_tolower`. -/
def email_addr_normalized_domain (d : List Nat) : List Nat :=
  d.map pg_tolower

/-- `email_addr_normalize` from src/pg_email_opt.c: rebuild the address
from the normalized local part and normalized domain. -/
def email_addr_normalize (a : EmailAddr) : EmailAddr :=
  ⟨email_addr_normalized_local_part a.localPart, email_addr_normalized_domain a.domain⟩

/-- `email_addr_domain_cmp` from src/pg_email_opt.c: compare the two
normalized (lower-cased) domains by length first — a shorter domain is
smaller outright — and only when the lengths are equal by `memcmp`. -/
def email_addr_domain_cmp (a1 a2 : EmailAddr) : Int :=
  let d1 := email_addr_normalized_domain a1.domain
  let d2 := email_addr_normalized_domain a2.domain
  if d1.length < d2.length then -1
  else if d2.length < d1.length then 1
  else memcmpList d1 d2

/-! ## Spec-side definitions used by the corrected claims -/

/-- Amended domain-only order (claim C4): order by domain length first —
shorter is smaller outright — and compare the bytes case-insensitively
only when the lengths are equal. -/
def lengthFirstDomainOrder (d1 d2 : List Nat) : Int :=
  if d1.length < d2.length then -1
  else if d2.length < d1.length then 1
  else bounded_strcasecmp d1 d2

/-- Split a byte list into its dot-separated groups (used to state the
amended IPv4 claim C6 independently of the scanning loop). -/
def splitOnDot : List Nat → List (List Nat)
  | [] => [[]]
  | c :: rest =>
    if c == 46 then [] :: splitOnDot rest
    else
      match splitOnDot rest with
      | [] => [[c]]
      | g :: gs => (c :: g) :: gs

/-- ASCII decimal digit. -/
def isDigitByte (c : Nat) : Bool :=
  decide (48 ≤ c) && decide (c ≤ 57)

/-- Decimal value of a digit run, folded onto an accumulator the same way
the C loop accumulates `curr_num`. -/
def valFrom (acc : Nat) (g : List Nat) : Nat :=
  g.foldl (fun a c => a * 10 + (c - 48)) acc

/-- A well-formed IPv4 group under the amended claim C6: non-empty, all
decimal digits, and numeric value at most 255 (no bound on the digit
count itself). -/
def ipv4GroupOk (g : List Nat) : Prop :=
  g ≠ [] ∧ g.all isDigitByte = true ∧ valFrom 0 g ≤ 255

/-! ## Helper lemmas -/

theorem memcmp_map_tolower_eq (d1 : List Nat) : ∀ d2 : List Nat, d1.length = d2.length →
    memcmpList (d1.map pg_tolower) (d2.map pg_tolower) = pg_strncasecmp d1 d2 d1.length := by
  induction d1 with
  | nil =>
    intro d2 h
    cases d2 with
    | nil => rfl
    | cons b bs => simp at h
  | cons a as ih =>
    intro d2 h
    cases d2 with
    | nil => simp at h
    | cons b bs =>
      simp only [List.map_cons, List.length_cons, memcmpList, pg_strncasecmp]
      split_ifs with hab
      · rfl
      · exact ih bs (by simpa using h)

theorem bounded_strcasecmp_eq_len (d1 d2 : List Nat) (h : d1.length = d2.length) :
    bounded_strcasecmp d1 d2 = pg_strncasecmp d1 d2 d1.length := by
  unfold bounded_strcasecmp
  rw [h, min_self]
  by_cases h0 : pg_strncasecmp d1 d2 d2.length = 0
  · simp [h0]
  · simp [h0]

/-! ## Claim C4 -/

/-- C4 (counterexample): the claim predicts that `email_addr_domain_cmp`
follows the case-insensitive common-prefix comparison (so `z.co` vs
`a.com` would compare greater, since `z > a` on the first byte), but the
code compares the lengths first and returns -1. -/
theorem C4_counterexample :
    ValidEmailAddr ⟨strBytes "a", strBytes "z.co"⟩ ∧
    ValidEmailAddr ⟨strBytes "a", strBytes "a.com"⟩ ∧
    email_addr_domain_cmp ⟨strBytes "a", strBytes "z.co"⟩ ⟨strBytes "a", strBytes "a.com"⟩ = -1 ∧
    0 < bounded_strcasecmp (strBytes "z.co") (strBytes "a.com") := by
  refine ⟨⟨by decide, by decide⟩, ⟨by decide, by decide⟩, by decide, by decide⟩

/-- C4 (amended): `email_addr_domain_cmp` orders two addresses' domains by
length first — a shorter domain sorts strictly before a longer one
regardless of their bytes — and only when the lengths are equal does it
return the case-insensitive byte comparison of the two domains. -/
theorem C4_domain_cmp_is_length_first (a1 a2 : EmailAddr) :
    email_addr_domain_cmp a1 a2 = lengthFirstDomainOrder a1.domain a2.domain := by
  unfold email_addr_domain_cmp lengthFirstDomainOrder email_addr_normalized_domain
  simp only [List.length_map]
  split_ifs with h1 h2
  · rfl
  · rfl
  · have hlen : a1.domain.length = a2.domain.length := by omega
    rw [memcmp_map_tolower_eq _ _ hlen, bounded_strcasecmp_eq_len _ _ hlen]

/-! ## Claim C2 -/

/-- C2: the claim (and the spec scenario) says
`validate_domain("[IPv6:2001:db8::1]")` succeeds as an IPv6 literal.  The
code rejects it: `is_valid_ipv6` skips the `IPv6:` prefix with the read
pointer but leaves `seg_start` at the start of the string, so the first
segment it checks is `IPv6:2001` (9 bytes, not hex), which fails — every
`[IPv6:...]` literal is rejected this way. -/
theorem C2_ipv6_literal_rejected :
    validate_email_domain (strBytes "[IPv6:2001:db8::1]") = false ∧
    validate_ip_literal (strBytes "[IPv6:2001:db8::1]") = false ∧
    is_valid_ipv6 (strBytes "IPv6:2001:db8::1") = false := by
  refine ⟨by decide, by decide, by decide⟩

/-! ## Claim C3 -/

/-- C3: for the validated pair `"a"` (quoted, collapsible) and `b`
(unquoted), the interiors compare case-insensitively as `a < b`, so the
claim says `compare_local_parts("\"a\"", "b")` is negative; the code
returns `-cmp` when the FIRST argument is quoted (its own comment says to
reverse when the SECOND is quoted), so it returns +1 here and -1 with the
arguments swapped. -/
theorem C3_mixed_orientation_flipped :
    validate_email_local_part (strBytes "\"a\"") = true ∧
    validate_email_local_part (strBytes "b") = true ∧
    quoted_content_valid_as_unquoted (strBytes "\"a\"") = true ∧
    bounded_strcasecmp (strBytes "a") (strBytes "b") < 0 ∧
    compare_local_parts (strBytes "\"a\"") (strBytes "b") = 1 ∧
    compare_local_parts (strBytes "b") (strBytes "\"a\"") = -1 := by
  refine ⟨by decide, by decide, by decide, by decide, by decide, by decide⟩

/-! ## Claim C5 -/

/-- C5: the claim says Normalize lower-cases the local part (in the
unquoted and collapsible-quoted branches).  The code never lower-cases any
local-part byte — `email_addr_normalized_local_part` only strips quotes or
copies — so normalizing the validated address `FOO@example.com` keeps the
local part `FOO` instead of the claimed `foo` (the domain is lower-cased
as claimed). -/
theorem C5_normalize_keeps_local_case :
    ValidEmailAddr ⟨strBytes "FOO", strBytes "example.com"⟩ ∧
    email_addr_normalize ⟨strBytes "FOO", strBytes "example.com"⟩ =
      ⟨strBytes "FOO", strBytes "example.com"⟩ ∧
    (email_addr_normalize ⟨strBytes "FOO", strBytes "example.com"⟩).localPart ≠ strBytes "foo" ∧
    email_addr_normalized_local_part (strBytes "\"A\"") = strBytes "A" := by
  refine ⟨⟨by decide, by decide⟩, by decide, by decide, by decide⟩

/-! ## Claim C6 -/

/-- C6 (counterexample): the claim says any bracketed dotted-quad with a
4-digit group fails, naming `[0255.0.0.1]`; the code accepts it — the
scanner bounds the running numeric value by 255 but never counts digits. -/
theorem C6_counterexample :
    validate_email_domain (strBytes "[0255.0.0.1]") = true ∧
    validate_ip_literal (strBytes "[0255.0.0.1]") = true ∧
    splitOnDot (strBytes "0255.0.0.1") =
      [strBytes "0255", strBytes "0", strBytes "0", strBytes "1"] ∧
    (strBytes "0255").length = 4 := by
  refine ⟨by decide, by decide, by decide, by decide⟩

/-! ## Claim C10 -/

theorem quotedWalkSt_append (xs ys : List Nat) : ∀ b,
    quotedWalkSt (xs ++ ys) b = (quotedWalkSt xs b).bind (fun b' => quotedWalkSt ys b') := by
  induction xs with
  | nil => intro b; rfl
  | cons c rest ih =>
    intro b
    simp only [List.cons_append, quotedWalkSt]
    split_ifs <;> simp [ih]

/-- C10: the quoted branch of `validate_email_local_part` never examines
the `prev_was_backslash` flag after the interior walk, so every quoted
local part within the length bound whose interior is a legal walk followed
by one final backslash (which escapes the closing quote) is accepted. -/
theorem C10_trailing_escape_accepted (mid : List Nat)
    (hlen : mid.length + 3 ≤ 64)
    (hwalk : quotedWalkSt mid false = some false) :
    validate_email_local_part (34 :: (mid ++ [92, 34])) = true := by
  have hlen3 : (34 :: (mid ++ [92, 34])).length = mid.length + 3 := by
    simp [List.length_append]
  have hlast : (34 :: (mid ++ [92, 34])).getLast? = some 34 := by
    have : (34 : Nat) :: (mid ++ [92, 34]) = (34 :: (mid ++ [92])) ++ [34] := by
      simp
    rw [this, List.getLast?_concat]
  have hquoted : isQuotedBytes (34 :: (mid ++ [92, 34])) = true := by
    simp [isQuotedBytes, hlast]
  have hinterior : (((34 : Nat) :: (mid ++ [92, 34])).drop 1).take
      ((34 :: (mid ++ [92, 34])).length - 2) = mid ++ [92] := by
    simp only [List.drop_succ_cons, List.drop_zero, hlen3]
    have h2 : mid.length + 3 - 2 = mid.length + 1 := by omega
    rw [h2, List.take_append 1]
    rfl
  have hwalk2 : quotedWalkSt (mid ++ [92]) false = some true := by
    rw [quotedWalkSt_append, hwalk]
    rfl
  unfold validate_email_local_part
  rw [hlen3] at hinterior ⊢
  rw [if_neg (by simp), if_neg (by omega), if_pos hquoted, if_neg (by omega), hinterior, hwalk2]
  rfl

/-- Witness for C10: the 4-byte local part `"a\"` — quote, letter a,
backslash, quote — validates successfully. -/
theorem C10_trailing_escape_accepted_witness :
    ([97].length + 3 ≤ 64 ∧ quotedWalkSt [97] false = some false) ∧
    validate_email_local_part (strBytes "\"a\\\"") = true := by
  refine ⟨⟨by decide, by decide⟩, ?_⟩
  have h : strBytes "\"a\\\"" = 34 :: ([97] ++ [92, 34]) := by decide
  rw [h]
  exact C10_trailing_escape_accepted [97] (by decide) (by decide)

/-! ## Claim C8 -/

theorem findValidAtAux_state (rest : List Nat) : ∀ (inq esc : Bool) (i : Nat) (cand : Option Nat),
    ((findValidAtAux rest inq esc i cand).1, (findValidAtAux rest inq esc i cand).2.1) =
      scanStateFrom rest inq esc := by
  induction rest with
  | nil => intro inq esc i cand; rfl
  | cons c rest ih => intro inq esc i cand; exact ih _ _ _ _

theorem findValidAtAux_ge (rest : List Nat) : ∀ (inq esc : Bool) (i m : Nat), m ≤ i →
    ∃ j, (findValidAtAux rest inq esc i (some m)).2.2 = some j ∧ m ≤ j := by
  induction rest with
  | nil => intro inq esc i m hm; exact ⟨m, rfl, le_refl m⟩
  | cons c rest ih =>
    intro inq esc i m hm
    simp only [findValidAtAux]
    by_cases hcond : (!esc && c == 64 && !inq) = true
    · rw [if_pos hcond]
      obtain ⟨j, hj, hij⟩ := ih (scanStep c inq esc).1 (scanStep c inq esc).2 (i + 1) i (by omega)
      exact ⟨j, hj, by omega⟩
    · rw [if_neg hcond]
      exact ih _ _ (i + 1) m (by omega)

theorem findValidAtAux_complete (rest : List Nat) :
    ∀ (inq esc : Bool) (i : Nat) (cand : Option Nat) (k : Nat),
    validAtFromState rest inq esc k →
    ∃ j, (findValidAtAux rest inq esc i cand).2.2 = some j ∧ i + k ≤ j := by
  induction rest with
  | nil =>
    intro inq esc i cand k hk
    exact absurd hk.1 (by simp)
  | cons c rest ih =>
    intro inq esc i cand k hk
    match k with
    | 0 =>
      have hc : c = 64 := by
        have := hk.1
        simp only [List.get?] at this
        exact Option.some.inj this
      have hstate : inq = false ∧ esc = false := by
        have := hk.2
        simp only [List.take_zero, scanStateFrom, Prod.mk.injEq] at this
        exact this
      have hcond : (!esc && c == 64 && !inq) = true := by
        simp [hc, hstate.1, hstate.2]
      simp only [findValidAtAux, hcond, if_pos]
      obtain ⟨j, hj, hij⟩ :=
        findValidAtAux_ge rest (scanStep c inq esc).1 (scanStep c inq esc).2 (i + 1) i (by omega)
      exact ⟨j, hj, by omega⟩
    | k' + 1 =>
      have hk' : validAtFromState rest (scanStep c inq esc).1 (scanStep c inq esc).2 k' := by
        refine ⟨hk.1, ?_⟩
        have := hk.2
        simpa [List.take_succ_cons, scanStateFrom] using this
      obtain ⟨j, hj, hij⟩ := ih _ _ (i + 1) (if (!esc && c == 64 && !inq) = true then some i else cand) k' hk'
      refine ⟨j, ?_, by omega⟩
      simpa [findValidAtAux] using hj

theorem findValidAtAux_sound (rest : List Nat) :
    ∀ (inq esc : Bool) (i : Nat) (cand : Option Nat) (j : Nat),
    (findValidAtAux rest inq esc i cand).2.2 = some j →
    cand = some j ∨ ∃ k, validAtFromState rest inq esc k ∧ j = i + k := by
  induction rest with
  | nil => intro inq esc i cand j hj; exact Or.inl hj
  | cons c rest ih =>
    intro inq esc i cand j hj
    simp only [findValidAtAux] at hj
    rcases ih _ _ (i + 1) _ j hj with hcand | ⟨k', hk', hjk'⟩
    · by_cases hcond : (!esc && c == 64 && !inq) = true
      · rw [if_pos hcond] at hcand
        have hji : j = i := (Option.some.inj hcand).symm
        have hcond' : (esc = false ∧ c = 64) ∧ inq = false := by simpa using hcond
        refine Or.inr ⟨0, ⟨?_, ?_⟩, by omega⟩
        · simp [hcond'.1.2]
        · simp [hcond'.1.1, hcond'.2, scanStateFrom]
      · rw [if_neg hcond] at hcand
        exact Or.inl hcand
    · refine Or.inr ⟨k' + 1, ⟨hk'.1, ?_⟩, by omega⟩
      have := hk'.2
      simpa [List.take_succ_cons, scanStateFrom] using this

/-- C8: whenever the scan of the raw input ends with quoting balanced and
no pending escape, and some `@` occurs outside quotes and unescaped, the
splitter succeeds and its separator is the last (rightmost) such `@`. -/
theorem C8_find_valid_at_selects_last (s : List Nat)
    (hscan : scanStateFrom s false false = (false, false))
    (i : Nat) (hi : validAtIdx s i) :
    ∃ j, find_valid_at s = some (some j) ∧ validAtIdx s j ∧ i ≤ j ∧
      ∀ k, validAtIdx s k → k ≤ j := by
  obtain ⟨j, hj, hij⟩ := findValidAtAux_complete s false false 0 none i hi
  have hstate := findValidAtAux_state s false false 0 none
  rw [hscan] at hstate
  have h1 : (findValidAtAux s false false 0 none).1 = false :=
    (Prod.mk.injEq _ _ _ _).mp hstate |>.1
  have h2 : (findValidAtAux s false false 0 none).2.1 = false :=
    (Prod.mk.injEq _ _ _ _).mp hstate |>.2
  have hfa : find_valid_at s = some (some j) := by
    simp [find_valid_at, h1, h2, hj]
  have hvj : validAtIdx s j := by
    rcases findValidAtAux_sound s false false 0 none j hj with hnone | ⟨k, hk, hjk⟩
    · exact absurd hnone (by simp)
    · have : j = k := by omega
      rw [this]
      exact hk
  refine ⟨j, hfa, hvj, by omega, ?_⟩
  intro k hk
  obtain ⟨j', hj', hkj'⟩ := findValidAtAux_complete s false false 0 none k hk
  rw [hj] at hj'
  have : j = j' := Option.some.inj hj'
  omega

/-- Witness for C8 on the spec's own example `a"@"b@example.com`: the scan
ends clear, position 5 (the second, unquoted `@`) is a valid separator
position, the splitter picks it (it is the largest), and slicing there
yields local part `a"@"b` and domain `example.com`. -/
theorem C8_find_valid_at_selects_last_witness :
    (scanStateFrom (strBytes "a\"@\"b@example.com") false false = (false, false) ∧
      validAtIdx (strBytes "a\"@\"b@example.com") 5) ∧
    (∃ j, find_valid_at (strBytes "a\"@\"b@example.com") = some (some j) ∧
      validAtIdx (strBytes "a\"@\"b@example.com") j ∧ 5 ≤ j ∧
      ∀ k, validAtIdx (strBytes "a\"@\"b@example.com") k → k ≤ j) ∧
    (strBytes "a\"@\"b@example.com").take 5 = strBytes "a\"@\"b" ∧
    (strBytes "a\"@\"b@example.com").drop 6 = strBytes "example.com" := by
  refine ⟨⟨by decide, by decide⟩, ?_, by decide, by decide⟩
  exact C8_find_valid_at_selects_last (strBytes "a\"@\"b@example.com") (by decide) 5 (by decide)

/-! ## Claim C9 -/

/-- C9: whenever `email_addr_in` accepts an input, the stored local part
and domain are exact slices of the input around the chosen `@`, so
rebuilding the text with `get_full_email` / `email_addr_cast_to_text`
(local part, `@`, domain) returns exactly the original bytes — acceptance
never rewrites, re-cases or re-quotes anything. -/
theorem C9_accepted_input_roundtrips (s : List Nat) (a : EmailAddr)
    (h : email_addr_in s = some a) :
    get_full_email a = s ∧ email_addr_cast_to_text a = s := by
  have hsplit : ∃ i, find_valid_at s = some (some i) ∧
      a = ⟨s.take i, s.drop (i + 1)⟩ := by
    unfold email_addr_in at h
    cases hfa : find_valid_at s with
    | none => rw [hfa] at h; exact absurd h (by simp)
    | some o =>
      cases o with
      | none => rw [hfa] at h; exact absurd h (by simp)
      | some i =>
        rw [hfa] at h
        refine ⟨i, rfl, ?_⟩
        simp only at h
        split_ifs at h
        all_goals first
          | exact (Option.some.inj h).symm
          | simp at h
  obtain ⟨i, hfa, ha⟩ := hsplit
  have hr : (findValidAtAux s false false 0 none).2.2 = some i := by
    simp only [find_valid_at] at hfa
    split_ifs at hfa
    all_goals first
      | exact hfa
      | exact Option.some.inj hfa
      | simp at hfa
  rcases findValidAtAux_sound s false false 0 none i hr with h0 | ⟨k, hk, hik⟩
  · simp at h0
  · have hk' : validAtFromState s false false i := by
      have hik' : i = k := by omega
      rw [hik']
      exact hk
    obtain ⟨hlt, hget⟩ := List.get?_eq_some.mp hk'.1
    have hdrop : s.drop i = 64 :: s.drop (i + 1) := by
      rw [List.drop_eq_get_cons hlt, hget]
    have hfull : s.take i ++ 64 :: s.drop (i + 1) = s := by
      rw [← hdrop]
      exact List.take_append_drop i s
    constructor
    · rw [ha]
      show s.take i ++ 64 :: s.drop (i + 1) = s
      exact hfull
    · rw [ha]
      show s.take i ++ 64 :: s.drop (i + 1) = s
      exact hfull

/-- Witness for C9: `a@b.co` is accepted and converts back to itself. -/
theorem C9_accepted_input_roundtrips_witness :
    email_addr_in (strBytes "a@b.co") = some ⟨strBytes "a", strBytes "b.co"⟩ ∧
    get_full_email ⟨strBytes "a", strBytes "b.co"⟩ = strBytes "a@b.co" ∧
    email_addr_cast_to_text ⟨strBytes "a", strBytes "b.co"⟩ = strBytes "a@b.co" := by
  refine ⟨by decide, ?_, ?_⟩
  · exact (C9_accepted_input_roundtrips (strBytes "a@b.co") ⟨strBytes "a", strBytes "b.co"⟩
      (by decide)).1
  · exact (C9_accepted_input_roundtrips (strBytes "a@b.co") ⟨strBytes "a", strBytes "b.co"⟩
      (by decide)).2

/-! ## Claim C7 -/

theorem pg_tolower_idem (c : Nat) : pg_tolower (pg_tolower c) = pg_tolower c := by
  unfold pg_tolower
  split_ifs <;> omega

theorem unquotedWalk_head (c : Nat) (rest : List Nat) (pd : Bool)
    (h : unquotedWalk (c :: rest) pd = true) :
    c = 46 ∨ is_valid_unquoted_char c = true := by
  by_cases h46 : c = 46
  · exact Or.inl h46
  · right
    by_contra hv
    have hv' : is_valid_unquoted_char c = false := by
      cases hval : is_valid_unquoted_char c
      · rfl
      · exact absurd hval hv
    simp [unquotedWalk, h46, hv'] at h

theorem validate_quoted_length (l : List Nat)
    (hval : validate_email_local_part l = true) (hq : isQuotedBytes l = true) :
    3 ≤ l.length := by
  unfold validate_email_local_part at hval
  split_ifs at hval <;> first | omega | simp at hval | exact absurd hq (by assumption)

theorem normalized_local_idem (l : List Nat)
    (hval : validate_email_local_part l = true) :
    email_addr_normalized_local_part (email_addr_normalized_local_part l) =
      email_addr_normalized_local_part l := by
  by_cases hq : (isQuotedBytes l && quoted_content_valid_as_unquoted l) = true
  · have h1 : email_addr_normalized_local_part l = (l.drop 1).take (l.length - 2) := by
      simp only [email_addr_normalized_local_part]
      rw [if_pos hq]
    have hpair : isQuotedBytes l = true ∧ quoted_content_valid_as_unquoted l = true := by
      simpa using hq
    have hlen3 := validate_quoted_length l hval hpair.1
    have hclen : ((l.drop 1).take (l.length - 2)).length = l.length - 2 := by
      simp [List.length_take, List.length_drop]
      omega
    have hcne : (l.drop 1).take (l.length - 2) ≠ [] := by
      intro hnil
      rw [hnil] at hclen
      simp at hclen
      omega
    obtain ⟨c, rest, hcr⟩ := List.exists_cons_of_ne_nil hcne
    have hc34 : ¬ c = 34 := by
      have h2 := hpair.2
      simp only [quoted_content_valid_as_unquoted] at h2
      split_ifs at h2 with hdot
      have h2' : unquotedWalk (c :: rest) false = true := by
        rw [← hcr]
        simpa [List.drop_one] using h2
      rcases unquotedWalk_head c rest false h2' with h46 | hvalid
      · exfalso
        apply hdot
        rw [hcr]
        simp [h46]
      · intro hc
        rw [hc] at hvalid
        exact absurd hvalid (by decide)
    have hnq : isQuotedBytes ((l.drop 1).take (l.length - 2)) = false := by
      unfold isQuotedBytes
      rw [hcr]
      simp [hc34]
    rw [h1]
    simp only [email_addr_normalized_local_part, hnq]
    rfl
  · have h1 : email_addr_normalized_local_part l = l := by
      simp only [email_addr_normalized_local_part]
      rw [if_neg hq]
    rw [h1, h1]

/-- C7: `email_addr_normalize` is idempotent on every validated address —
normalizing an already-normalized address returns byte-identical local
part and domain.  (The collapsed interior of a collapsible quoted part
never starts with a quote, so it is not treated as quoted on the second
pass; the domain lower-casing is idempotent byte-wise.) -/
theorem C7_normalize_idempotent (a : EmailAddr) (h : ValidEmailAddr a) :
    email_addr_normalize (email_addr_normalize a) = email_addr_normalize a := by
  have hdom : email_addr_normalized_domain (email_addr_normalized_domain a.domain) =
      email_addr_normalized_domain a.domain := by
    unfold email_addr_normalized_domain
    rw [List.map_map]
    congr 1
    funext c
    exact pg_tolower_idem c
  have hloc := normalized_local_idem a.localPart h.1
  simp only [email_addr_normalize]
  rw [EmailAddr.mk.injEq]
  exact ⟨hloc, hdom⟩

/-- Witness for C7 on the validated address `Ab@X.org`. -/
theorem C7_normalize_idempotent_witness :
    ValidEmailAddr ⟨strBytes "Ab", strBytes "X.org"⟩ ∧
    email_addr_normalize (email_addr_normalize ⟨strBytes "Ab", strBytes "X.org"⟩) =
      email_addr_normalize ⟨strBytes "Ab", strBytes "X.org"⟩ := by
  refine ⟨⟨by decide, by decide⟩, ?_⟩
  exact C7_normalize_idempotent ⟨strBytes "Ab", strBytes "X.org"⟩ ⟨by decide, by decide⟩

/-! ## Claim C1 -/

theorem pg_strncasecmp_zero (l1 : List Nat) : ∀ l2 : List Nat, l1.length = l2.length →
    pg_strncasecmp l1 l2 l1.length = 0 → l1.map pg_tolower = l2.map pg_tolower := by
  induction l1 with
  | nil =>
    intro l2 h _
    cases l2 with
    | nil => rfl
    | cons b bs => simp at h
  | cons a as ih =>
    intro l2 h hp
    cases l2 with
    | nil => simp at h
    | cons b bs =>
      simp only [List.length_cons, pg_strncasecmp] at hp
      split_ifs at hp with hne
      · exfalso
        apply hne
        have hz : (pg_tolower a : Int) = pg_tolower b := by omega
        exact_mod_cast hz
      · have hab : pg_tolower a = pg_tolower b := not_ne_iff.mp hne
        simp only [List.map_cons, hab]
        rw [ih bs (by simpa using h) hp]

theorem bounded_strcasecmp_zero (l1 l2 : List Nat) (h : bounded_strcasecmp l1 l2 = 0) :
    l1.length = l2.length ∧ l1.map pg_tolower = l2.map pg_tolower := by
  simp only [bounded_strcasecmp] at h
  by_cases hc : pg_strncasecmp l1 l2 (min l1.length l2.length) = 0
  · rw [if_pos hc] at h
    have hlen : l1.length = l2.length := by
      by_contra hne
      rcases Nat.lt_or_ge l1.length l2.length with hlt | hge
      · rw [if_pos hlt] at h
        exact absurd h (by decide)
      · have hlt2 : l2.length < l1.length := by omega
        rw [if_neg (by omega), if_pos hlt2] at h
        exact absurd h (by decide)
    refine ⟨hlen, ?_⟩
    apply pg_strncasecmp_zero l1 l2 hlen
    rw [show min l1.length l2.length = l1.length by omega] at hc
    exact hc
  · rw [if_neg hc] at h
    exact absurd h hc

theorem memcmp_zero_eq (l1 : List Nat) : ∀ l2 : List Nat, l1.length = l2.length →
    memcmpList l1 l2 = 0 → l1 = l2 := by
  induction l1 with
  | nil =>
    intro l2 h _
    cases l2 with
    | nil => rfl
    | cons b bs => simp at h
  | cons a as ih =>
    intro l2 h hm
    cases l2 with
    | nil => simp at h
    | cons b bs =>
      simp only [memcmpList] at hm
      by_cases hne : a = b
      · rw [if_neg (not_ne_iff.mpr hne)] at hm
        rw [hne, ih bs (by simpa using h) hm]
      · rw [if_pos hne] at hm
        exfalso
        apply hne
        have hz : (a : Int) = b := by omega
        exact_mod_cast hz

theorem validate_isQuoted_align (l : List Nat)
    (hval : validate_email_local_part l = true) :
    (decide (2 ≤ l.length) && isQuotedBytes l) = isQuotedBytes l := by
  cases hq : isQuotedBytes l
  · simp
  · have h3 := validate_quoted_length l hval hq
    have h2 : 2 ≤ l.length := by omega
    simp [h2]

theorem hash_unquoted (l : List Nat) (h : isQuotedBytes l = false) :
    hash_local_part l = List.foldl djb2Step 5381 (l.map pg_tolower) := by
  simp [hash_local_part, h]

theorem hash_quoted_col (l : List Nat) (h : isQuotedBytes l = true)
    (hc : quoted_content_valid_as_unquoted l = true) :
    hash_local_part l =
      List.foldl djb2Step 5381 (((l.drop 1).take (l.length - 2)).map pg_tolower) := by
  simp [hash_local_part, h, hc]

theorem hash_eq_of_compare_zero (l1 l2 : List Nat)
    (hv1 : validate_email_local_part l1 = true)
    (hv2 : validate_email_local_part l2 = true)
    (hc : compare_local_parts l1 l2 = 0) :
    hash_local_part l1 = hash_local_part l2 := by
  cases hq1 : isQuotedBytes l1 <;> cases hq2 : isQuotedBytes l2
  · -- both unquoted: the comparison is bounded_strcasecmp
    have hcc : compare_local_parts l1 l2 = bounded_strcasecmp l1 l2 := by
      simp [compare_local_parts, hq1, hq2]
    rw [hcc] at hc
    obtain ⟨hlen, hmap⟩ := bounded_strcasecmp_zero l1 l2 hc
    rw [hash_unquoted l1 hq1, hash_unquoted l2 hq2, hmap]
  · -- l1 unquoted, l2 quoted
    have hl2 : 2 ≤ l2.length := by
      have := validate_quoted_length l2 hv2 hq2
      omega
    by_cases hcol : quoted_content_valid_as_unquoted l2 = true
    · have hcc : compare_local_parts l1 l2 =
          bounded_strcasecmp ((l2.drop 1).take (l2.length - 2)) l1 := by
        simp [compare_local_parts, hq1, hq2, hl2, hcol]
      rw [hcc] at hc
      obtain ⟨hlen, hmap⟩ := bounded_strcasecmp_zero _ _ hc
      rw [hash_unquoted l1 hq1, hash_quoted_col l2 hq2 hcol, ← hmap]
    · have hcc : compare_local_parts l1 l2 = -1 := by
        simp [compare_local_parts, hq1, hq2, hl2, hcol]
      rw [hcc] at hc
      exact absurd hc (by decide)
  · -- l1 quoted, l2 unquoted
    have hl1 : 2 ≤ l1.length := by
      have := validate_quoted_length l1 hv1 hq1
      omega
    by_cases hcol : quoted_content_valid_as_unquoted l1 = true
    · have hcc : compare_local_parts l1 l2 =
          -bounded_strcasecmp ((l1.drop 1).take (l1.length - 2)) l2 := by
        simp [compare_local_parts, hq1, hq2, hl1, hcol]
      rw [hcc] at hc
      have hb : bounded_strcasecmp ((l1.drop 1).take (l1.length - 2)) l2 = 0 := by omega
      obtain ⟨hlen, hmap⟩ := bounded_strcasecmp_zero _ _ hb
      rw [hash_quoted_col l1 hq1 hcol, hash_unquoted l2 hq2, hmap]
    · have hcc : compare_local_parts l1 l2 = 1 := by
        simp [compare_local_parts, hq1, hq2, hl1, hcol]
      rw [hcc] at hc
      exact absurd hc (by decide)
  · -- both quoted
    have hl1 : 2 ≤ l1.length := by
      have := validate_quoted_length l1 hv1 hq1
      omega
    have hl2 : 2 ≤ l2.length := by
      have := validate_quoted_length l2 hv2 hq2
      omega
    by_cases hm : memcmpList (l1.take (min l1.length l2.length))
        (l2.take (min l1.length l2.length)) = 0
    · have hcc : compare_local_parts l1 l2 =
          (if l1.length < l2.length then -1
           else if l2.length < l1.length then 1 else 0) := by
        simp [compare_local_parts, hq1, hq2, hl1, hl2, hm]
      rw [hcc] at hc
      have hlen : l1.length = l2.length := by
        by_contra hne
        rcases Nat.lt_or_ge l1.length l2.length with hlt | hge
        · rw [if_pos hlt] at hc
          exact absurd hc (by decide)
        · rw [if_neg (by omega), if_pos (by omega)] at hc
          exact absurd hc (by decide)
      have ht1 : l1.take (min l1.length l2.length) = l1 := by
        rw [show min l1.length l2.length = l1.length by omega]
        exact List.take_length l1
      have ht2 : l2.take (min l1.length l2.length) = l2 := by
        rw [show min l1.length l2.length = l2.length by omega]
        exact List.take_length l2
      rw [ht1, ht2] at hm
      rw [memcmp_zero_eq l1 l2 hlen hm]
    · have hcc : compare_local_parts l1 l2 =
          memcmpList (l1.take (min l1.length l2.length))
            (l2.take (min l1.length l2.length)) := by
        simp [compare_local_parts, hq1, hq2, hl1, hl2, hm]
      rw [hcc] at hc
      exact absurd hc hm

/-- C1: for every two validated addresses, if `email_addr_cmp` yields 0
(domains via `bounded_strcasecmp`, local parts via `compare_local_parts`),
then `email_addr_hash` agrees — across all three local-part branches
(collapsible-quoted, non-collapsible-quoted, unquoted).  Equal-compare
domains have identical lower-cased bytes, and equal-compare local parts
hash identically: equal unquoted/collapsible forms agree on lower-cased
bytes hashed by DJB2, equal quoted forms are byte-identical, and a
non-collapsible quoted part never compares equal to an unquoted one. -/
theorem C1_compare_zero_implies_hash_eq (a b : EmailAddr)
    (ha : ValidEmailAddr a) (hb : ValidEmailAddr b)
    (hcmp : email_addr_cmp a b = 0) :
    email_addr_hash a = email_addr_hash b := by
  have hdom0 : bounded_strcasecmp a.domain b.domain = 0 := by
    by_contra hd
    simp only [email_addr_cmp] at hcmp
    rw [if_pos hd] at hcmp
    exact hd hcmp
  have hloc0 : compare_local_parts a.localPart b.localPart = 0 := by
    simp only [email_addr_cmp] at hcmp
    rw [if_neg (not_not_intro hdom0)] at hcmp
    exact hcmp
  obtain ⟨hdlen, hdmap⟩ := bounded_strcasecmp_zero a.domain b.domain hdom0
  have hlochash := hash_eq_of_compare_zero a.localPart b.localPart ha.1 hb.1 hloc0
  unfold email_addr_hash
  rw [hlochash, hdmap]

/-- Witness for C1 on the spec's own example pair `FOO@EXAMPLE.COM` and
`foo@example.com`: both validate, they compare equal, and they hash
equally. -/
theorem C1_compare_zero_implies_hash_eq_witness :
    (ValidEmailAddr ⟨strBytes "FOO", strBytes "EXAMPLE.COM"⟩ ∧
     ValidEmailAddr ⟨strBytes "foo", strBytes "example.com"⟩ ∧
     email_addr_cmp ⟨strBytes "FOO", strBytes "EXAMPLE.COM"⟩
       ⟨strBytes "foo", strBytes "example.com"⟩ = 0) ∧
    email_addr_hash ⟨strBytes "FOO", strBytes "EXAMPLE.COM"⟩ =
      email_addr_hash ⟨strBytes "foo", strBytes "example.com"⟩ := by
  refine ⟨⟨⟨by decide, by decide⟩, ⟨by decide, by decide⟩, by decide⟩, ?_⟩
  exact C1_compare_zero_implies_hash_eq
    ⟨strBytes "FOO", strBytes "EXAMPLE.COM"⟩ ⟨strBytes "foo", strBytes "example.com"⟩
    ⟨by decide, by decide⟩ ⟨by decide, by decide⟩ (by decide)

/-! ## Claim C6, amended direction -/

instance (g : List Nat) : Decidable (ipv4GroupOk g) := by
  unfold ipv4GroupOk
  infer_instance

theorem ipv4Loop_sound (rest : List Nat) : ∀ (prev : Option Nat) (curr dots : Nat),
    ipv4Loop rest prev curr dots = true →
    ∃ g gs, splitOnDot rest = g :: gs ∧
      ((prev = none ∨ prev = some 46) → rest ≠ [] → g ≠ []) ∧
      g.all isDigitByte = true ∧
      (g ≠ [] → valFrom curr g ≤ 255) ∧
      (∀ h2 ∈ gs, h2 ≠ [] ∧ h2.all isDigitByte = true ∧ valFrom 0 h2 ≤ 255) ∧
      dots + gs.length = 3 := by
  induction rest with
  | nil =>
    intro prev curr dots hloop
    simp only [ipv4Loop] at hloop
    refine ⟨[], [], rfl, by simp, by simp, by simp, by simp, ?_⟩
    have hd3 : dots = 3 := by
      rcases Bool.and_eq_true_iff.mp hloop with ⟨_, h3⟩
      simpa using h3
    simp only [List.length_nil]
    omega
  | cons c rest ih =>
    intro prev curr dots hloop
    simp only [ipv4Loop] at hloop
    by_cases h46 : (c == 46) = true
    · rw [if_pos h46] at hloop
      by_cases hprev : prev = none ∨ prev = some 46
      · rw [if_pos hprev] at hloop
        exact absurd hloop (by simp)
      · rw [if_neg hprev] at hloop
        obtain ⟨g', gs', hsplit', hne', hdig', hval', hgs', hdots'⟩ :=
          ih (some 46) 0 (dots + 1) hloop
        have hrne : rest ≠ [] := by
          intro hr
          rw [hr] at hloop
          simp [ipv4Loop] at hloop
        have hg'ne : g' ≠ [] := hne' (Or.inr rfl) hrne
        refine ⟨[], g' :: gs', ?_, fun hp _ => absurd hp hprev, by simp, by simp, ?_, ?_⟩
        · simp [splitOnDot, h46, hsplit']
        · intro h2 hh2
          rcases List.mem_cons.mp hh2 with hg | hg
          · subst hg
            exact ⟨hg'ne, hdig', hval' hg'ne⟩
          · exact hgs' h2 hg
        · simp only [List.length_cons]
          omega
    · rw [if_neg h46] at hloop
      by_cases hdigit : c < 48 ∨ 57 < c
      · rw [if_pos hdigit] at hloop
        exact absurd hloop (by simp)
      · rw [if_neg hdigit] at hloop
        by_cases hover : 255 < curr * 10 + (c - 48)
        · rw [if_pos hover] at hloop
          exact absurd hloop (by simp)
        · rw [if_neg hover] at hloop
          obtain ⟨g', gs', hsplit', hne', hdig', hval', hgs', hdots'⟩ :=
            ih (some c) (curr * 10 + (c - 48)) dots hloop
          refine ⟨c :: g', gs', ?_, ?_, ?_, ?_, hgs', ?_⟩
          · simp [splitOnDot, h46, hsplit']
          · intro _ _
            simp
          · have hdc : isDigitByte c = true := by
              simp only [isDigitByte, Bool.and_eq_true, decide_eq_true_eq]
              omega
            simp [List.all_cons, hdc, hdig']
          · intro _
            have hstep : valFrom curr (c :: g') = valFrom (curr * 10 + (c - 48)) g' := rfl
            rw [hstep]
            cases hg' : g' with
            | nil =>
              simp only [valFrom, List.foldl_nil]
              omega
            | cons x xs =>
              rw [← hg']
              exact hval' (by rw [hg']; simp)
          · omega

/-- C6 (amended): a bracketed literal whose interior is not an `IPv6:`
literal is accepted only when the interior splits into exactly 4
dot-separated groups, each a non-empty run of decimal digits of numeric
value at most 255 — the number of digits per group is not otherwise
limited. -/
theorem C6_ipv4_groups_sound (s : List Nat)
    (h : validate_ip_literal s = true)
    (h6 : ¬ (bracketInterior s).take 5 = strBytes "IPv6:") :
    (splitOnDot (bracketInterior s)).length = 4 ∧
      ∀ g ∈ splitOnDot (bracketInterior s), ipv4GroupOk g := by
  have hip : is_valid_ipv4 (bracketInterior s) = true := by
    simp only [validate_ip_literal] at h
    split_ifs at h
    exact h
  have hnil : ¬ bracketInterior s = [] := by
    intro he
    rw [is_valid_ipv4, if_pos he] at hip
    exact absurd hip (by simp)
  have hloop : ipv4Loop (bracketInterior s) none 0 0 = true := by
    rw [is_valid_ipv4, if_neg hnil] at hip
    exact hip
  obtain ⟨g, gs, hsplit, hne, hdig, hval, hgs, hdots⟩ :=
    ipv4Loop_sound (bracketInterior s) none 0 0 hloop
  have hgne : g ≠ [] := hne (Or.inl rfl) hnil
  constructor
  · rw [hsplit]
    simp only [List.length_cons]
    omega
  · intro g0 hg0
    rw [hsplit] at hg0
    rcases List.mem_cons.mp hg0 with hg | hg
    · subst hg
      exact ⟨hgne, hdig, hval hgne⟩
    · exact hgs g0 hg

/-- Witness for the amended C6 on `[10.0.0.255]`. -/
theorem C6_ipv4_groups_sound_witness :
    (validate_ip_literal (strBytes "[10.0.0.255]") = true ∧
      ¬ (bracketInterior (strBytes "[10.0.0.255]")).take 5 = strBytes "IPv6:") ∧
    ((splitOnDot (bracketInterior (strBytes "[10.0.0.255]"))).length = 4 ∧
      ∀ g ∈ splitOnDot (bracketInterior (strBytes "[10.0.0.255]")), ipv4GroupOk g) := by
  refine ⟨⟨by decide, by decide⟩, ?_⟩
  exact C6_ipv4_groups_sound (strBytes "[10.0.0.255]") (by decide) (by decide)
